import Mathlib

/-!
Verification of the XML-RPC value formatter (`src/value.rs`).

The repository defines an enum `Value` of XML-RPC values and one method
`Value::format` that recursively writes the XML representation to an output
sink, one XML element per line, aborting on the first failed write.

Embedding choices:
* Byte sequences are `List Nat` (each entry a byte value; byte-ness `< 256`
  is carried as a hypothesis where the arithmetic needs it).
* The external collaborators `utils::escape_xml`, `utils::format_datetime`
  and the `base64` crate's `encode` are not part of `src/`; they are
  modelled from the spec (see the doc comments below).
* The output sink (`W: Write`) is modelled as an oracle `f : Nat → Bool`
  telling whether the n-th write call succeeds, together with a state
  `(callsDone, bytesWritten)`.  A failed write writes nothing and the
  error carries the state at the failure, matching `try!(writeln!(..))`.
-/

/-- Bytes of an ASCII string literal (all literals used here are ASCII,
so code points and bytes coincide). -/
def ascii (s : String) : List Nat := s.data.map Char.toNat

/-- Modelled from the spec: `utils::escape_xml` is not under `src/`.
Per the spec's escaping rule, a single byte maps to `&amp;` for `&` (38),
`&lt;` for `<` (60), and is passed through unchanged otherwise
(in particular `>` is not escaped). -/
def escByte (b : Nat) : List Nat :=
  if b = 38 then ascii "&amp;"
  else if b = 60 then ascii "&lt;"
  else [b]

/-- Modelled from the spec: `utils::escape_xml` escapes text content
bytewise before it is embedded in an element body. -/
def escape_xml (s : List Nat) : List Nat := s.flatMap escByte

/-- Modelled from the spec: value of a 6-bit group in the standard base64
alphabet (`A-Z`, `a-z`, `0-9`, `+`, `/`). -/
def b64char (n : Nat) : Nat :=
  if n < 26 then 65 + n
  else if n < 52 then 97 + (n - 26)
  else if n < 62 then 48 + (n - 52)
  else if n = 62 then 43
  else 47

/-- Modelled from the spec: the `base64` crate's `encode` (standard
alphabet, `=`-padded), bytewise on groups of three input bytes. -/
def encode : List Nat → List Nat
  | [] => []
  | [a] => [b64char (a / 4), b64char (a % 4 * 16), 61, 61]
  | [a, b] => [b64char (a / 4), b64char (a % 4 * 16 + b / 16),
               b64char (b % 16 * 4), 61]
  | a :: b :: c :: rest =>
      b64char (a / 4) :: b64char (a % 4 * 16 + b / 16) ::
      b64char (b % 16 * 4 + c / 64) :: b64char (c % 64) :: encode rest

/-- Modelled from the spec: inverse of `b64char` on the standard alphabet
(a "standard base64 decoder" in the claim's words). -/
def b64val (c : Nat) : Nat :=
  if 65 ≤ c ∧ c ≤ 90 then c - 65
  else if 97 ≤ c ∧ c ≤ 122 then c - 97 + 26
  else if 48 ≤ c ∧ c ≤ 57 then c - 48 + 52
  else if c = 43 then 62
  else if c = 47 then 63
  else 0

/-- Modelled from the spec: a standard padded base64 decoder, consuming
four characters per group and honouring `=` (61) padding. -/
def decode : List Nat → List Nat
  | c1 :: c2 :: c3 :: c4 :: rest =>
      if c3 = 61 then [b64val c1 * 4 + b64val c2 / 16]
      else if c4 = 61 then
        [b64val c1 * 4 + b64val c2 / 16, b64val c2 % 16 * 16 + b64val c3 / 4]
      else
        (b64val c1 * 4 + b64val c2 / 16) ::
        (b64val c2 % 16 * 16 + b64val c3 / 4) ::
        (b64val c3 % 4 * 64 + b64val c4) :: decode rest
  | _ => []

/-- Modelled from the spec: the `iso8601::DateTime` collaborator, a
calendar date-time (year/month/day/hour/minute/second); the claims never
inspect its contents, only that it is carried and rendered verbatim. -/
structure DateTime where
  year : Int
  month : Nat
  day : Nat
  hour : Nat
  minute : Nat
  second : Nat
deriving DecidableEq

/-- Two-digit zero-padded decimal rendering of a field. -/
def pad2 (n : Nat) : List Nat :=
  if n < 10 then ascii "0" ++ ascii (toString n) else ascii (toString n)

/-- Modelled from the spec: `utils::format_datetime` is not under `src/`;
the spec only says it yields the ISO-8601 string for the date-time. -/
def format_datetime (dt : DateTime) : List Nat :=
  ascii (toString dt.year) ++ pad2 dt.month ++ pad2 dt.day ++ ascii "T" ++
  pad2 dt.hour ++ ascii ":" ++ pad2 dt.minute ++ ascii ":" ++ pad2 dt.second

/-- Modelled from the spec: an `f64` is treated opaquely; the spec says the
double's text is whatever the language's default decimal display of the
float yields, passed through verbatim (NaN/Infinity included), so the
embedding identifies a float with that display text. -/
structure F64 where
  display : List Nat
deriving DecidableEq

/-- The possible XML-RPC values (`Value<'a>` in `src/value.rs`).  Ownership
modes (`Cow` borrowed vs. owned) present the same read-only sequence view
and are collapsed; `String`/`Base64` payloads and struct member names are
byte sequences. -/
inductive Value where
  | int (i : Int)
  | int64 (i : Int)
  | bool (b : Bool)
  | str (s : List Nat)
  | double (d : F64)
  | dateTime (dt : DateTime)
  | base64 (data : List Nat)
  | struct (pairs : List (List Nat × Value))
  | array (items : List Value)
  | nil

/-- Chunk written by `writeln!(fmt, "<value>")`. -/
def vOpenL : List Nat := ascii "<value>\n"

/-- Chunk written by `writeln!(fmt, "</value>")`. -/
def vCloseL : List Nat := ascii "</value>\n"

/-- Line for `Value::Int` (`<i4>{}</i4>`, canonical signed decimal). -/
def i4L (i : Int) : List Nat := ascii "<i4>" ++ ascii (toString i) ++ ascii "</i4>\n"

/-- Line for `Value::Int64` (`<i8>{}</i8>`). -/
def i8L (i : Int) : List Nat := ascii "<i8>" ++ ascii (toString i) ++ ascii "</i8>\n"

/-- Line for `Value::Bool` (`<boolean>{}</boolean>`, `1`/`0`). -/
def boolL (b : Bool) : List Nat :=
  ascii "<boolean>" ++ ascii (if b then "1" else "0") ++ ascii "</boolean>\n"

/-- Line for `Value::String` (`<string>{}</string>` with escaped body). -/
def strL (s : List Nat) : List Nat :=
  ascii "<string>" ++ escape_xml s ++ ascii "</string>\n"

/-- Line for `Value::Double` (`<double>{}</double>`, display passed through). -/
def dblL (d : F64) : List Nat :=
  ascii "<double>" ++ d.display ++ ascii "</double>\n"

/-- Line for `Value::DateTime`. -/
def dtL (dt : DateTime) : List Nat :=
  ascii "<dateTime.iso8601>" ++ format_datetime dt ++ ascii "</dateTime.iso8601>\n"

/-- Line for `Value::Base64` (`<base64>{}</base64>`, base64 body, unescaped). -/
def b64L (data : List Nat) : List Nat :=
  ascii "<base64>" ++ encode data ++ ascii "</base64>\n"

/-- Chunk `<struct>` line. -/
def structOpenL : List Nat := ascii "<struct>\n"

/-- Chunk `</struct>` line. -/
def structCloseL : List Nat := ascii "</struct>\n"

/-- Chunk `<member>` line. -/
def memberOpenL : List Nat := ascii "<member>\n"

/-- Chunk `</member>` line. -/
def memberCloseL : List Nat := ascii "</member>\n"

/-- Line for a member name (`<name>{}</name>` with escaped name). -/
def nameL (n : List Nat) : List Nat :=
  ascii "<name>" ++ escape_xml n ++ ascii "</name>\n"

/-- Chunk `<array>` line. -/
def arrOpenL : List Nat := ascii "<array>\n"

/-- Chunk `</array>` line. -/
def arrCloseL : List Nat := ascii "</array>\n"

/-- Chunk `<data>` line. -/
def dataOpenL : List Nat := ascii "<data>\n"

/-- Chunk `</data>` line. -/
def dataCloseL : List Nat := ascii "</data>\n"

/-- Chunk `<nil/>` line. -/
def nilL : List Nat := ascii "<nil/>\n"

/-- Sink state: number of write calls performed so far and the bytes
accepted so far. -/
abbrev WSt := Nat × List Nat

/-- Result of running the formatter against a sink: `ok` with the final
state, or `error` carrying the state at the first failed write (the
`io::Result` of `Value::format`, with the sink's observable state). -/
abbrev WResult := Except WSt WSt

/-- One `writeln!` call: if the oracle accepts call number `st.1` the chunk
is appended, otherwise the write fails, nothing is written, and the error
is returned. -/
def writeChunk (f : Nat → Bool) (c : List Nat) (st : WSt) : WResult :=
  if f st.1 then .ok (st.1 + 1, st.2 ++ c) else .error st

/-- `try!`: continue with the new state on success, return the error
immediately otherwise. -/
def wtry (r : WResult) (k : WSt → WResult) : WResult :=
  match r with
  | .ok st => k st
  | .error e => .error e

mutual
/-- `Value::format` from `src/value.rs` lines 89-141, with the
`<value>`/`</value>` envelope of lines 90 and 138 inlined into each
variant's branch.  Each `try!(writeln!(..))` is one `wtry (writeChunk ..)`
step; struct members and array items are iterated in list order. -/
def Value.format (f : Nat → Bool) : Value → WSt → WResult
  | .int i, st =>
      wtry (writeChunk f vOpenL st) fun st =>
      wtry (writeChunk f (i4L i) st) fun st =>
      writeChunk f vCloseL st
  | .int64 i, st =>
      wtry (writeChunk f vOpenL st) fun st =>
      wtry (writeChunk f (i8L i) st) fun st =>
      writeChunk f vCloseL st
  | .bool b, st =>
      wtry (writeChunk f vOpenL st) fun st =>
      wtry (writeChunk f (boolL b) st) fun st =>
      writeChunk f vCloseL st
  | .str s, st =>
      wtry (writeChunk f vOpenL st) fun st =>
      wtry (writeChunk f (strL s) st) fun st =>
      writeChunk f vCloseL st
  | .double d, st =>
      wtry (writeChunk f vOpenL st) fun st =>
      wtry (writeChunk f (dblL d) st) fun st =>
      writeChunk f vCloseL st
  | .dateTime dt, st =>
      wtry (writeChunk f vOpenL st) fun st =>
      wtry (writeChunk f (dtL dt) st) fun st =>
      writeChunk f vCloseL st
  | .base64 data, st =>
      wtry (writeChunk f vOpenL st) fun st =>
      wtry (writeChunk f (b64L data) st) fun st =>
      writeChunk f vCloseL st
  | .struct pairs, st =>
      wtry (writeChunk f vOpenL st) fun st =>
      wtry (writeChunk f structOpenL st) fun st =>
      wtry (formatMembers f pairs st) fun st =>
      wtry (writeChunk f structCloseL st) fun st =>
      writeChunk f vCloseL st
  | .array items, st =>
      wtry (writeChunk f vOpenL st) fun st =>
      wtry (writeChunk f arrOpenL st) fun st =>
      wtry (writeChunk f dataOpenL st) fun st =>
      wtry (formatItems f items st) fun st =>
      wtry (writeChunk f dataCloseL st) fun st =>
      wtry (writeChunk f arrCloseL st) fun st =>
      writeChunk f vCloseL st
  | .nil, st =>
      wtry (writeChunk f vOpenL st) fun st =>
      wtry (writeChunk f nilL st) fun st =>
      writeChunk f vCloseL st

/-- The `for (name, value) in map` loop of the `Struct` branch
(lines 116-121): `<member>`, escaped `<name>`, recursive format,
`</member>`, in list order. -/
def formatMembers (f : Nat → Bool) : List (List Nat × Value) → WSt → WResult
  | [], st => .ok st
  | (n, v) :: rest, st =>
      wtry (writeChunk f memberOpenL st) fun st =>
      wtry (writeChunk f (nameL n) st) fun st =>
      wtry (Value.format f v st) fun st =>
      wtry (writeChunk f memberCloseL st) fun st =>
      formatMembers f rest st

/-- The `for value in array` loop of the `Array` branch (lines 127-129). -/
def formatItems (f : Nat → Bool) : List Value → WSt → WResult
  | [], st => .ok st
  | v :: rest, st =>
      wtry (Value.format f v st) fun st =>
      formatItems f rest st
end

mutual
/-- The sequence of chunks `Value::format` passes to the sink, one entry
per `writeln!` call, independent of the sink. -/
def Value.writes : Value → List (List Nat)
  | .int i => [vOpenL, i4L i, vCloseL]
  | .int64 i => [vOpenL, i8L i, vCloseL]
  | .bool b => [vOpenL, boolL b, vCloseL]
  | .str s => [vOpenL, strL s, vCloseL]
  | .double d => [vOpenL, dblL d, vCloseL]
  | .dateTime dt => [vOpenL, dtL dt, vCloseL]
  | .base64 data => [vOpenL, b64L data, vCloseL]
  | .struct pairs =>
      vOpenL :: structOpenL :: (memberWrites pairs ++ [structCloseL, vCloseL])
  | .array items =>
      vOpenL :: arrOpenL :: dataOpenL ::
        (itemWrites items ++ [dataCloseL, arrCloseL, vCloseL])
  | .nil => [vOpenL, nilL, vCloseL]

/-- Chunks of the struct member loop. -/
def memberWrites : List (List Nat × Value) → List (List Nat)
  | [] => []
  | (n, v) :: rest =>
      memberOpenL :: nameL n :: (Value.writes v ++ (memberCloseL :: memberWrites rest))

/-- Chunks of the array item loop. -/
def itemWrites : List Value → List (List Nat)
  | [] => []
  | v :: rest => Value.writes v ++ itemWrites rest
end

/-- The complete byte output of a fully successful format of `v`. -/
def Value.output (v : Value) : List Nat := (Value.writes v).flatten

/-- Run a chunk list against the sink, chunk by chunk. -/
def runWrites (f : Nat → Bool) : List (List Nat) → WSt → WResult
  | [], st => .ok st
  | c :: cs, st => wtry (writeChunk f c st) (runWrites f cs)

/-- The bytes a result left in the sink, whether or not an error occurred. -/
def resWritten (r : WResult) : List Nat :=
  match r with
  | .ok st => st.2
  | .error st => st.2

theorem wtry_ok (st : WSt) (k : WSt → WResult) : wtry (.ok st) k = k st := rfl

theorem wtry_error (e : WSt) (k : WSt → WResult) : wtry (.error e) k = .error e := rfl

theorem wtry_assoc (r : WResult) (k k2 : WSt → WResult) :
    wtry (wtry r k) k2 = wtry r (fun st => wtry (k st) k2) := by
  cases r <;> rfl

theorem wtry_ok_right (r : WResult) : wtry r (fun st => .ok st) = r := by
  cases r <;> rfl

theorem runWrites_nil (f : Nat → Bool) (st : WSt) : runWrites f [] st = .ok st := rfl

theorem runWrites_cons (f : Nat → Bool) (c : List Nat) (cs : List (List Nat)) (st : WSt) :
    runWrites f (c :: cs) st = wtry (writeChunk f c st) (runWrites f cs) := rfl

theorem runWrites_nil_fn (f : Nat → Bool) : runWrites f [] = fun st => .ok st :=
  funext fun _ => rfl

theorem runWrites_cons_fn (f : Nat → Bool) (c : List Nat) (cs : List (List Nat)) :
    runWrites f (c :: cs) = fun st => wtry (writeChunk f c st) (runWrites f cs) :=
  funext fun _ => rfl

theorem runWrites_append (f : Nat → Bool) (cs ds : List (List Nat)) (st : WSt) :
    runWrites f (cs ++ ds) st = wtry (runWrites f cs st) (runWrites f ds) := by
  induction cs generalizing st with
  | nil => simp [runWrites_nil, wtry_ok]
  | cons c cs ih =>
      have ihf : runWrites f (cs ++ ds) =
          fun st => wtry (runWrites f cs st) (runWrites f ds) := funext ih
      simp [runWrites_cons, ihf, wtry_assoc]

theorem runWrites_append_fn (f : Nat → Bool) (cs ds : List (List Nat)) :
    runWrites f (cs ++ ds) = fun st => wtry (runWrites f cs st) (runWrites f ds) :=
  funext fun st => runWrites_append f cs ds st

mutual
theorem format_eq_run (f : Nat → Bool) (v : Value) (st : WSt) :
    Value.format f v st = runWrites f (Value.writes v) st := by
  cases v with
  | int i =>
      simp [Value.format, Value.writes, runWrites_cons_fn, runWrites_nil_fn, wtry_ok_right]
  | int64 i =>
      simp [Value.format, Value.writes, runWrites_cons_fn, runWrites_nil_fn, wtry_ok_right]
  | bool b =>
      simp [Value.format, Value.writes, runWrites_cons_fn, runWrites_nil_fn, wtry_ok_right]
  | str s =>
      simp [Value.format, Value.writes, runWrites_cons_fn, runWrites_nil_fn, wtry_ok_right]
  | double d =>
      simp [Value.format, Value.writes, runWrites_cons_fn, runWrites_nil_fn, wtry_ok_right]
  | dateTime dt =>
      simp [Value.format, Value.writes, runWrites_cons_fn, runWrites_nil_fn, wtry_ok_right]
  | base64 data =>
      simp [Value.format, Value.writes, runWrites_cons_fn, runWrites_nil_fn, wtry_ok_right]
  | struct pairs =>
      simp [Value.format, Value.writes, runWrites_cons_fn, runWrites_nil_fn,
        runWrites_append_fn, wtry_assoc, wtry_ok_right,
        formatMembers_eq_run f pairs]
  | array items =>
      simp [Value.format, Value.writes, runWrites_cons_fn, runWrites_nil_fn,
        runWrites_append_fn, wtry_assoc, wtry_ok_right,
        formatItems_eq_run f items]
  | nil =>
      simp [Value.format, Value.writes, runWrites_cons_fn, runWrites_nil_fn, wtry_ok_right]

theorem formatMembers_eq_run (f : Nat → Bool) (ps : List (List Nat × Value)) (st : WSt) :
    formatMembers f ps st = runWrites f (memberWrites ps) st := by
  cases ps with
  | nil => simp [formatMembers, memberWrites, runWrites_nil]
  | cons p rest =>
      cases p with
      | mk n v =>
          simp [formatMembers, memberWrites, runWrites_cons_fn, runWrites_append_fn,
            wtry_assoc, format_eq_run f v, formatMembers_eq_run f rest]

theorem formatItems_eq_run (f : Nat → Bool) (vs : List Value) (st : WSt) :
    formatItems f vs st = runWrites f (itemWrites vs) st := by
  cases vs with
  | nil => simp [formatItems, itemWrites, runWrites_nil]
  | cons v rest =>
      simp [formatItems, itemWrites, runWrites_append_fn, wtry_assoc,
        format_eq_run f v, formatItems_eq_run f rest]
end

theorem runWrites_ok (f : Nat → Bool) (hf : ∀ i, f i = true)
    (cs : List (List Nat)) (n : Nat) (w : List Nat) :
    runWrites f cs (n, w) = .ok (n + cs.length, w ++ cs.flatten) := by
  induction cs generalizing n w with
  | nil => simp [runWrites_nil]
  | cons c cs ih =>
      simp only [runWrites_cons, writeChunk, hf, if_pos, wtry_ok]
      rw [ih (n + 1) (w ++ c)]
      simp [List.append_assoc]
      omega

theorem runWrites_failAt (k : Nat) (cs : List (List Nat)) (n : Nat) (w : List Nat)
    (hn : n ≤ k) :
    runWrites (fun i => decide (i < k)) cs (n, w) =
      if n + cs.length ≤ k then .ok (n + cs.length, w ++ cs.flatten)
      else .error (k, w ++ (cs.take (k - n)).flatten) := by
  induction cs generalizing n w with
  | nil =>
      have h0 : n + List.length ([] : List (List Nat)) ≤ k := by simpa using hn
      rw [runWrites_nil, if_pos h0]
      simp
  | cons c cs ih =>
      by_cases hlt : n < k
      · have hw : writeChunk (fun i => decide (i < k)) c (n, w) = .ok (n + 1, w ++ c) := by
          simp [writeChunk, hlt]
        rw [runWrites_cons, hw, wtry_ok, ih (n + 1) (w ++ c) (by omega)]
        by_cases hle : n + 1 + cs.length ≤ k
        · rw [if_pos hle, if_pos (by simp only [List.length_cons]; omega)]
          simp [List.append_assoc]
          omega
        · rw [if_neg hle, if_neg (by simp only [List.length_cons]; omega)]
          have htake : k - n = (k - (n + 1)) + 1 := by omega
          rw [htake]
          simp [List.append_assoc]
      · have hw : writeChunk (fun i => decide (i < k)) c (n, w) = .error (n, w) := by
          simp [writeChunk, hlt]
        rw [runWrites_cons, hw, wtry_error,
          if_neg (by simp only [List.length_cons]; omega)]
        have hnk : n = k := by omega
        subst hnk
        simp

theorem resWritten_runWrites_prefix (f : Nat → Bool) (cs : List (List Nat))
    (n : Nat) (w : List Nat) :
    ∃ t, resWritten (runWrites f cs (n, w)) ++ t = w ++ cs.flatten := by
  induction cs generalizing n w with
  | nil => exact ⟨[], by simp [runWrites_nil, resWritten]⟩
  | cons c cs ih =>
      by_cases hf : f n
      · have hw : writeChunk f c (n, w) = .ok (n + 1, w ++ c) := by
          simp [writeChunk, hf]
        rw [runWrites_cons, hw, wtry_ok]
        obtain ⟨t, ht⟩ := ih (n + 1) (w ++ c)
        exact ⟨t, by simpa [List.append_assoc] using ht⟩
      · have hw : writeChunk f c (n, w) = .error (n, w) := by
          simp [writeChunk, hf]
        rw [runWrites_cons, hw, wtry_error]
        exact ⟨c ++ cs.flatten, by simp [resWritten, List.append_assoc]⟩

/-- A byte string is well-escaped XML character data: it contains no `<`
(60) at all, and every `&` (38) is the head of an `&amp;` or `&lt;`
entity. -/
def wellEscaped : List Nat → Bool
  | [] => true
  | b :: rest =>
      if b = 60 then false
      else if b = 38 then
        (decide (rest.take 4 = [97, 109, 112, 59]) && wellEscaped (rest.drop 4)) ||
        (decide (rest.take 3 = [108, 116, 59]) && wellEscaped (rest.drop 3))
      else wellEscaped rest
termination_by l => l.length
decreasing_by
  all_goals simp [List.length_drop]
  all_goals omega

theorem escape_xml_nil : escape_xml [] = [] := rfl

theorem escape_xml_cons (b : Nat) (t : List Nat) :
    escape_xml (b :: t) = escByte b ++ escape_xml t := by
  simp [escape_xml]

theorem wellEscaped_escape_xml (s : List Nat) : wellEscaped (escape_xml s) = true := by
  induction s with
  | nil =>
      rw [escape_xml_nil, wellEscaped]
  | cons b t ih =>
      rw [escape_xml_cons, escByte]
      by_cases h38 : b = 38
      · rw [if_pos h38]
        show wellEscaped (38 :: ([97, 109, 112, 59] ++ escape_xml t)) = true
        rw [wellEscaped]
        simp [ih]
      · rw [if_neg h38]
        by_cases h60 : b = 60
        · rw [if_pos h60]
          show wellEscaped (38 :: ([108, 116, 59] ++ escape_xml t)) = true
          rw [wellEscaped]
          simp [ih]
        · rw [if_neg h60]
          show wellEscaped (b :: escape_xml t) = true
          rw [wellEscaped]
          rw [if_neg h60, if_neg h38]
          exact ih

theorem count_62_escByte (b : Nat) : (escByte b).count 62 = [b].count 62 := by
  rw [escByte]
  by_cases h38 : b = 38
  · rw [if_pos h38]
    subst h38
    decide
  · rw [if_neg h38]
    by_cases h60 : b = 60
    · rw [if_pos h60]
      subst h60
      decide
    · rw [if_neg h60]

theorem count_62_escape_xml (s : List Nat) : (escape_xml s).count 62 = s.count 62 := by
  induction s with
  | nil => rfl
  | cons b t ih =>
      rw [escape_xml_cons, List.count_append, count_62_escByte, ih]
      simp [List.count_cons]
      omega

theorem b64val_b64char : ∀ n < 64, b64val (b64char n) = n := by decide

theorem b64char_ne_61 : ∀ n < 64, b64char n ≠ 61 := by decide

theorem b64char_safe : ∀ n < 64, b64char n < 128 ∧ b64char n ≠ 38 ∧ b64char n ≠ 60 := by
  decide

theorem decode_encode : ∀ (s : List Nat), (∀ b ∈ s, b < 256) → decode (encode s) = s
  | [], _ => rfl
  | [a], h => by
      have ha : a < 256 := h a (by simp)
      have h1 : a / 4 < 64 := by omega
      have h2 : a % 4 * 16 < 64 := by omega
      show decode [b64char (a / 4), b64char (a % 4 * 16), 61, 61] = [a]
      rw [decode, if_pos rfl, b64val_b64char _ h1, b64val_b64char _ h2]
      congr 1
      omega
  | [a, b], h => by
      have ha : a < 256 := h a (by simp)
      have hb : b < 256 := h b (by simp)
      have h1 : a / 4 < 64 := by omega
      have h2 : a % 4 * 16 + b / 16 < 64 := by omega
      have h3 : b % 16 * 4 < 64 := by omega
      show decode [b64char (a / 4), b64char (a % 4 * 16 + b / 16),
        b64char (b % 16 * 4), 61] = [a, b]
      rw [decode, if_neg (b64char_ne_61 _ h3), if_pos rfl,
        b64val_b64char _ h1, b64val_b64char _ h2, b64val_b64char _ h3]
      congr 1
      · omega
      · congr 1
        omega
  | a :: b :: c :: rest, h => by
      have ha : a < 256 := h a (by simp)
      have hb : b < 256 := h b (by simp)
      have hc : c < 256 := h c (by simp)
      have h1 : a / 4 < 64 := by omega
      have h2 : a % 4 * 16 + b / 16 < 64 := by omega
      have h3 : b % 16 * 4 + c / 64 < 64 := by omega
      have h4 : c % 64 < 64 := by omega
      have ih : decode (encode rest) = rest :=
        decode_encode rest (fun x hx => h x (by simp [hx]))
      show decode (b64char (a / 4) :: b64char (a % 4 * 16 + b / 16) ::
        b64char (b % 16 * 4 + c / 64) :: b64char (c % 64) :: encode rest) =
        a :: b :: c :: rest
      rw [decode, if_neg (b64char_ne_61 _ h3), if_neg (b64char_ne_61 _ h4),
        b64val_b64char _ h1, b64val_b64char _ h2, b64val_b64char _ h3,
        b64val_b64char _ h4, ih]
      congr 1
      · omega
      · congr 1
        · omega
        · congr 1
          omega

theorem encode_safe : ∀ (s : List Nat), (∀ b ∈ s, b < 256) →
    ∀ x ∈ encode s, x < 128 ∧ x ≠ 38 ∧ x ≠ 60
  | [], _ => by simp [encode]
  | [a], h => by
      have ha : a < 256 := h a (by simp)
      have h1 := b64char_safe (a / 4) (by omega)
      have h2 := b64char_safe (a % 4 * 16) (by omega)
      intro x hx
      simp only [encode, List.mem_cons, List.not_mem_nil, or_false] at hx
      rcases hx with rfl | rfl | rfl | rfl
      · exact h1
      · exact h2
      · exact ⟨by omega, by omega, by omega⟩
      · exact ⟨by omega, by omega, by omega⟩
  | [a, b], h => by
      have ha : a < 256 := h a (by simp)
      have hb : b < 256 := h b (by simp)
      have h1 := b64char_safe (a / 4) (by omega)
      have h2 := b64char_safe (a % 4 * 16 + b / 16) (by omega)
      have h3 := b64char_safe (b % 16 * 4) (by omega)
      intro x hx
      simp only [encode, List.mem_cons, List.not_mem_nil, or_false] at hx
      rcases hx with rfl | rfl | rfl | rfl
      · exact h1
      · exact h2
      · exact h3
      · exact ⟨by omega, by omega, by omega⟩
  | a :: b :: c :: rest, h => by
      have ha : a < 256 := h a (by simp)
      have hb : b < 256 := h b (by simp)
      have hc : c < 256 := h c (by simp)
      have h1 := b64char_safe (a / 4) (by omega)
      have h2 := b64char_safe (a % 4 * 16 + b / 16) (by omega)
      have h3 := b64char_safe (b % 16 * 4 + c / 64) (by omega)
      have h4 := b64char_safe (c % 64) (by omega)
      have ih := encode_safe rest (fun x hx => h x (by simp [hx]))
      intro x hx
      rw [show encode (a :: b :: c :: rest) = b64char (a / 4) ::
        b64char (a % 4 * 16 + b / 16) :: b64char (b % 16 * 4 + c / 64) ::
        b64char (c % 64) :: encode rest from rfl] at hx
      simp only [List.mem_cons] at hx
      rcases hx with rfl | rfl | rfl | rfl | hx
      · exact h1
      · exact h2
      · exact h3
      · exact h4
      · exact ih x hx

/-- Nesting contribution of a chunk: `<value>` opens a level, `</value>`
closes one, every other line is depth-neutral. -/
def tagDelta (c : List Nat) : Int :=
  if c = vOpenL then 1 else if c = vCloseL then -1 else 0

/-- Sum of the nesting deltas of a chunk list. -/
def sumDelta : List (List Nat) → Int
  | [] => 0
  | c :: cs => tagDelta c + sumDelta cs

/-- Maximum `<value>` nesting level reached over all prefixes of a chunk
list (at least 0). -/
def maxNest : List (List Nat) → Int
  | [] => 0
  | c :: cs => max 0 (tagDelta c + maxNest cs)

mutual
/-- Nesting depth of a value tree: scalars have depth 1, containers one
more than their deepest child (1 if empty). -/
def Value.depth : Value → Nat
  | .struct pairs => 1 + membersDepth pairs
  | .array items => 1 + itemsDepth items
  | _ => 1

/-- Maximum depth of the values of a struct member list. -/
def membersDepth : List (List Nat × Value) → Nat
  | [] => 0
  | (_, v) :: rest => max (Value.depth v) (membersDepth rest)

/-- Maximum depth of an array item list. -/
def itemsDepth : List Value → Nat
  | [] => 0
  | v :: rest => max (Value.depth v) (itemsDepth rest)
end

theorem maxNest_nonneg (cs : List (List Nat)) : 0 ≤ maxNest cs := by
  cases cs with
  | nil => simp [maxNest]
  | cons c cs => simp [maxNest]

theorem sumDelta_le_maxNest (cs : List (List Nat)) : sumDelta cs ≤ maxNest cs := by
  induction cs with
  | nil => simp [sumDelta, maxNest]
  | cons c cs ih =>
      simp only [sumDelta, maxNest]
      omega

theorem sumDelta_nil : sumDelta [] = 0 := rfl

theorem sumDelta_cons (c : List Nat) (cs : List (List Nat)) :
    sumDelta (c :: cs) = tagDelta c + sumDelta cs := rfl

theorem maxNest_nil : maxNest [] = 0 := rfl

theorem maxNest_cons (c : List Nat) (cs : List (List Nat)) :
    maxNest (c :: cs) = max 0 (tagDelta c + maxNest cs) := rfl

theorem sumDelta_append (cs ds : List (List Nat)) :
    sumDelta (cs ++ ds) = sumDelta cs + sumDelta ds := by
  induction cs with
  | nil => rw [List.nil_append, sumDelta_nil]; omega
  | cons c cs ih =>
      rw [List.cons_append, sumDelta_cons, sumDelta_cons, ih]
      omega

theorem maxNest_append (cs ds : List (List Nat)) :
    maxNest (cs ++ ds) = max (maxNest cs) (sumDelta cs + maxNest ds) := by
  induction cs with
  | nil =>
      have h := maxNest_nonneg ds
      rw [List.nil_append, maxNest_nil, sumDelta_nil]
      omega
  | cons c cs ih =>
      rw [List.cons_append, maxNest_cons, maxNest_cons, sumDelta_cons, ih]
      omega

theorem tagDelta_vOpenL : tagDelta vOpenL = 1 := by
  simp [tagDelta]

theorem tagDelta_vCloseL : tagDelta vCloseL = -1 := by
  rw [tagDelta, if_neg (by decide), if_pos rfl]

theorem tagDelta_of_ne (c : List Nat) (h1 : c ≠ vOpenL) (h2 : c ≠ vCloseL) :
    tagDelta c = 0 := by
  rw [tagDelta, if_neg h1, if_neg h2]

/-- A chunk whose second byte is neither `v` (118) nor `/` (47) is neither
the `<value>` line nor the `</value>` line, hence depth-neutral. -/
theorem tagDelta_of_snd (pre rest : List Nat) (hl : 1 < pre.length)
    (hv : pre[1]? ≠ some 118) (hc : pre[1]? ≠ some 47) :
    tagDelta (pre ++ rest) = 0 := by
  apply tagDelta_of_ne
  · intro he
    have h2 : (pre ++ rest)[1]? = some 118 := by rw [he]; decide
    rw [List.getElem?_append_left hl] at h2
    exact hv h2
  · intro he
    have h2 : (pre ++ rest)[1]? = some 47 := by rw [he]; decide
    rw [List.getElem?_append_left hl] at h2
    exact hc h2

theorem tagDelta_i4L (i : Int) : tagDelta (i4L i) = 0 := by
  rw [i4L, List.append_assoc]
  exact tagDelta_of_snd _ _ (by decide) (by decide) (by decide)

theorem tagDelta_i8L (i : Int) : tagDelta (i8L i) = 0 := by
  rw [i8L, List.append_assoc]
  exact tagDelta_of_snd _ _ (by decide) (by decide) (by decide)

theorem tagDelta_boolL (b : Bool) : tagDelta (boolL b) = 0 := by
  rw [boolL, List.append_assoc]
  exact tagDelta_of_snd _ _ (by decide) (by decide) (by decide)

theorem tagDelta_strL (s : List Nat) : tagDelta (strL s) = 0 := by
  rw [strL, List.append_assoc]
  exact tagDelta_of_snd _ _ (by decide) (by decide) (by decide)

theorem tagDelta_dblL (d : F64) : tagDelta (dblL d) = 0 := by
  rw [dblL, List.append_assoc]
  exact tagDelta_of_snd _ _ (by decide) (by decide) (by decide)

theorem tagDelta_dtL (dt : DateTime) : tagDelta (dtL dt) = 0 := by
  rw [dtL, List.append_assoc]
  exact tagDelta_of_snd _ _ (by decide) (by decide) (by decide)

theorem tagDelta_b64L (data : List Nat) : tagDelta (b64L data) = 0 := by
  rw [b64L, List.append_assoc]
  exact tagDelta_of_snd _ _ (by decide) (by decide) (by decide)

theorem tagDelta_nameL (n : List Nat) : tagDelta (nameL n) = 0 := by
  rw [nameL, List.append_assoc]
  exact tagDelta_of_snd _ _ (by decide) (by decide) (by decide)

theorem tagDelta_structOpenL : tagDelta structOpenL = 0 := by
  exact tagDelta_of_ne _ (by decide) (by decide)

theorem tagDelta_structCloseL : tagDelta structCloseL = 0 := by
  exact tagDelta_of_ne _ (by decide) (by decide)

theorem tagDelta_memberOpenL : tagDelta memberOpenL = 0 := by
  exact tagDelta_of_ne _ (by decide) (by decide)

theorem tagDelta_memberCloseL : tagDelta memberCloseL = 0 := by
  exact tagDelta_of_ne _ (by decide) (by decide)

theorem tagDelta_arrOpenL : tagDelta arrOpenL = 0 := by
  exact tagDelta_of_ne _ (by decide) (by decide)

theorem tagDelta_arrCloseL : tagDelta arrCloseL = 0 := by
  exact tagDelta_of_ne _ (by decide) (by decide)

theorem tagDelta_dataOpenL : tagDelta dataOpenL = 0 := by
  exact tagDelta_of_ne _ (by decide) (by decide)

theorem tagDelta_dataCloseL : tagDelta dataCloseL = 0 := by
  exact tagDelta_of_ne _ (by decide) (by decide)

theorem tagDelta_nilL : tagDelta nilL = 0 := by
  exact tagDelta_of_ne _ (by decide) (by decide)

mutual
theorem sumDelta_writes (v : Value) : sumDelta (Value.writes v) = 0 := by
  cases v with
  | int i =>
      simp only [Value.writes, sumDelta_cons, sumDelta_nil,
        tagDelta_vOpenL, tagDelta_vCloseL, tagDelta_i4L]
      omega
  | int64 i =>
      simp only [Value.writes, sumDelta_cons, sumDelta_nil,
        tagDelta_vOpenL, tagDelta_vCloseL, tagDelta_i8L]
      omega
  | bool b =>
      simp only [Value.writes, sumDelta_cons, sumDelta_nil,
        tagDelta_vOpenL, tagDelta_vCloseL, tagDelta_boolL]
      omega
  | str s =>
      simp only [Value.writes, sumDelta_cons, sumDelta_nil,
        tagDelta_vOpenL, tagDelta_vCloseL, tagDelta_strL]
      omega
  | double d =>
      simp only [Value.writes, sumDelta_cons, sumDelta_nil,
        tagDelta_vOpenL, tagDelta_vCloseL, tagDelta_dblL]
      omega
  | dateTime dt =>
      simp only [Value.writes, sumDelta_cons, sumDelta_nil,
        tagDelta_vOpenL, tagDelta_vCloseL, tagDelta_dtL]
      omega
  | base64 data =>
      simp only [Value.writes, sumDelta_cons, sumDelta_nil,
        tagDelta_vOpenL, tagDelta_vCloseL, tagDelta_b64L]
      omega
  | struct pairs =>
      have h := sumDelta_memberWrites pairs
      simp only [Value.writes, sumDelta_cons, sumDelta_nil, sumDelta_append,
        tagDelta_vOpenL, tagDelta_vCloseL, tagDelta_structOpenL,
        tagDelta_structCloseL, h]
      omega
  | array items =>
      have h := sumDelta_itemWrites items
      simp only [Value.writes, sumDelta_cons, sumDelta_nil, sumDelta_append,
        tagDelta_vOpenL, tagDelta_vCloseL, tagDelta_arrOpenL,
        tagDelta_arrCloseL, tagDelta_dataOpenL, tagDelta_dataCloseL, h]
      omega
  | nil =>
      simp only [Value.writes, sumDelta_cons, sumDelta_nil,
        tagDelta_vOpenL, tagDelta_vCloseL, tagDelta_nilL]
      omega

theorem sumDelta_memberWrites (ps : List (List Nat × Value)) :
    sumDelta (memberWrites ps) = 0 := by
  cases ps with
  | nil => simp only [memberWrites, sumDelta_nil]
  | cons p rest =>
      cases p with
      | mk n v =>
          have h1 := sumDelta_writes v
          have h2 := sumDelta_memberWrites rest
          simp only [memberWrites, sumDelta_cons, sumDelta_append,
            tagDelta_memberOpenL, tagDelta_memberCloseL, tagDelta_nameL, h1, h2]
          omega

theorem sumDelta_itemWrites (vs : List Value) : sumDelta (itemWrites vs) = 0 := by
  cases vs with
  | nil => simp only [itemWrites, sumDelta_nil]
  | cons v rest =>
      have h1 := sumDelta_writes v
      have h2 := sumDelta_itemWrites rest
      simp only [itemWrites, sumDelta_append, h1, h2]
      omega
end

mutual
theorem maxNest_writes (v : Value) : maxNest (Value.writes v) = (Value.depth v : Int) := by
  cases v with
  | int i =>
      simp only [Value.writes, Value.depth, maxNest_cons, maxNest_nil,
        tagDelta_vOpenL, tagDelta_vCloseL, tagDelta_i4L]
      omega
  | int64 i =>
      simp only [Value.writes, Value.depth, maxNest_cons, maxNest_nil,
        tagDelta_vOpenL, tagDelta_vCloseL, tagDelta_i8L]
      omega
  | bool b =>
      simp only [Value.writes, Value.depth, maxNest_cons, maxNest_nil,
        tagDelta_vOpenL, tagDelta_vCloseL, tagDelta_boolL]
      omega
  | str s =>
      simp only [Value.writes, Value.depth, maxNest_cons, maxNest_nil,
        tagDelta_vOpenL, tagDelta_vCloseL, tagDelta_strL]
      omega
  | double d =>
      simp only [Value.writes, Value.depth, maxNest_cons, maxNest_nil,
        tagDelta_vOpenL, tagDelta_vCloseL, tagDelta_dblL]
      omega
  | dateTime dt =>
      simp only [Value.writes, Value.depth, maxNest_cons, maxNest_nil,
        tagDelta_vOpenL, tagDelta_vCloseL, tagDelta_dtL]
      omega
  | base64 data =>
      simp only [Value.writes, Value.depth, maxNest_cons, maxNest_nil,
        tagDelta_vOpenL, tagDelta_vCloseL, tagDelta_b64L]
      omega
  | struct pairs =>
      have h := maxNest_memberWrites pairs
      have hs := sumDelta_memberWrites pairs
      simp only [Value.writes, Value.depth, maxNest_cons, maxNest_nil,
        maxNest_append, sumDelta_cons, sumDelta_nil,
        tagDelta_vOpenL, tagDelta_vCloseL, tagDelta_structOpenL,
        tagDelta_structCloseL, h, hs]
      push_cast
      omega
  | array items =>
      have h := maxNest_itemWrites items
      have hs := sumDelta_itemWrites items
      simp only [Value.writes, Value.depth, maxNest_cons, maxNest_nil,
        maxNest_append, sumDelta_cons, sumDelta_nil,
        tagDelta_vOpenL, tagDelta_vCloseL, tagDelta_arrOpenL,
        tagDelta_arrCloseL, tagDelta_dataOpenL, tagDelta_dataCloseL, h, hs]
      push_cast
      omega
  | nil =>
      simp only [Value.writes, Value.depth, maxNest_cons, maxNest_nil,
        tagDelta_vOpenL, tagDelta_vCloseL, tagDelta_nilL]
      omega

theorem maxNest_memberWrites (ps : List (List Nat × Value)) :
    maxNest (memberWrites ps) = (membersDepth ps : Int) := by
  cases ps with
  | nil => simp only [memberWrites, membersDepth, maxNest_nil, Nat.cast_zero]
  | cons p rest =>
      cases p with
      | mk n v =>
          have h1 := maxNest_writes v
          have hs1 := sumDelta_writes v
          have h2 := maxNest_memberWrites rest
          simp only [memberWrites, membersDepth, maxNest_cons, maxNest_append,
            sumDelta_cons, tagDelta_memberOpenL, tagDelta_memberCloseL,
            tagDelta_nameL, h1, hs1, h2]
          push_cast
          omega

theorem maxNest_itemWrites (vs : List Value) :
    maxNest (itemWrites vs) = (itemsDepth vs : Int) := by
  cases vs with
  | nil => simp only [itemWrites, itemsDepth, maxNest_nil, Nat.cast_zero]
  | cons v rest =>
      have h1 := maxNest_writes v
      have hs1 := sumDelta_writes v
      have h2 := maxNest_itemWrites rest
      simp only [itemWrites, itemsDepth, maxNest_append, h1, hs1, h2]
      push_cast
      omega
end

theorem count_38_escByte (b : Nat) :
    (escByte b).count 38 = [b].count 38 + [b].count 60 := by
  rw [escByte]
  by_cases h38 : b = 38
  · rw [if_pos h38]
    subst h38
    decide
  · rw [if_neg h38]
    by_cases h60 : b = 60
    · rw [if_pos h60]
      subst h60
      decide
    · rw [if_neg h60]
      simp [List.count_cons, h38, h60]

theorem count_38_escape_xml (s : List Nat) :
    (escape_xml s).count 38 = s.count 38 + s.count 60 := by
  induction s with
  | nil => rfl
  | cons b t ih =>
      rw [escape_xml_cons, List.count_append, count_38_escByte, ih]
      simp [List.count_cons]
      omega

theorem escape_xml_id_of_safe (l : List Nat) (h : ∀ x ∈ l, x ≠ 38 ∧ x ≠ 60) :
    escape_xml l = l := by
  induction l with
  | nil => rfl
  | cons b t ih =>
      obtain ⟨h38, h60⟩ := h b (by simp)
      rw [escape_xml_cons, escByte, if_neg h38, if_neg h60,
        ih (fun x hx => h x (by simp [hx]))]
      rfl

theorem memberWrites_eq_flatten (ps : List (List Nat × Value)) :
    memberWrites ps =
      (ps.map (fun p => memberOpenL :: nameL p.1 ::
        (Value.writes p.2 ++ [memberCloseL]))).flatten := by
  induction ps with
  | nil => simp [memberWrites]
  | cons p rest ih =>
      cases p with
      | mk n v => simp [memberWrites, ih, List.append_assoc]

theorem itemWrites_eq_flatten (vs : List Value) :
    itemWrites vs = (vs.map Value.writes).flatten := by
  induction vs with
  | nil => simp [itemWrites]
  | cons v rest ih => simp [itemWrites, ih]

theorem depth_pos (v : Value) : 1 ≤ Value.depth v := by
  cases v <;> simp [Value.depth]

mutual
/-- Depth-fuel-indexed version of the chunk trace: a call consumes one unit
of recursion depth and children are processed with one unit less; `none`
means the depth budget was exhausted before the walk finished. -/
def writesB : Nat → Value → Option (List (List Nat))
  | 0, _ => none
  | _ + 1, .int i => some [vOpenL, i4L i, vCloseL]
  | _ + 1, .int64 i => some [vOpenL, i8L i, vCloseL]
  | _ + 1, .bool b => some [vOpenL, boolL b, vCloseL]
  | _ + 1, .str s => some [vOpenL, strL s, vCloseL]
  | _ + 1, .double d => some [vOpenL, dblL d, vCloseL]
  | _ + 1, .dateTime dt => some [vOpenL, dtL dt, vCloseL]
  | _ + 1, .base64 data => some [vOpenL, b64L data, vCloseL]
  | fuel + 1, .struct pairs =>
      (membersB fuel pairs).map
        (fun ws => vOpenL :: structOpenL :: (ws ++ [structCloseL, vCloseL]))
  | fuel + 1, .array items =>
      (itemsB fuel items).map
        (fun ws => vOpenL :: arrOpenL :: dataOpenL ::
          (ws ++ [dataCloseL, arrCloseL, vCloseL]))
  | _ + 1, .nil => some [vOpenL, nilL, vCloseL]

/-- Fuel version of the struct member loop; each member's value is
formatted with the given remaining depth. -/
def membersB (fuel : Nat) : List (List Nat × Value) → Option (List (List Nat))
  | [] => some []
  | (n, v) :: rest => do
      let w ← writesB fuel v
      let ws ← membersB fuel rest
      some (memberOpenL :: nameL n :: (w ++ (memberCloseL :: ws)))

/-- Fuel version of the array item loop. -/
def itemsB (fuel : Nat) : List Value → Option (List (List Nat))
  | [] => some []
  | v :: rest => do
      let w ← writesB fuel v
      let ws ← itemsB fuel rest
      some (w ++ ws)
end

mutual
theorem writesB_eq (fuel : Nat) (v : Value) (h : Value.depth v ≤ fuel) :
    writesB fuel v = some (Value.writes v) := by
  cases fuel with
  | zero => exact absurd (le_trans (depth_pos v) h) (by omega)
  | succ fuel =>
      cases v with
      | int i => simp [writesB, Value.writes]
      | int64 i => simp [writesB, Value.writes]
      | bool b => simp [writesB, Value.writes]
      | str s => simp [writesB, Value.writes]
      | double d => simp [writesB, Value.writes]
      | dateTime dt => simp [writesB, Value.writes]
      | base64 data => simp [writesB, Value.writes]
      | struct pairs =>
          have hd : membersDepth pairs ≤ fuel := by
            simp only [Value.depth] at h
            omega
          rw [show writesB (fuel + 1) (.struct pairs) =
            (membersB fuel pairs).map
              (fun ws => vOpenL :: structOpenL :: (ws ++ [structCloseL, vCloseL]))
            from by simp [writesB]]
          rw [membersB_eq fuel pairs hd]
          simp [Value.writes]
      | array items =>
          have hd : itemsDepth items ≤ fuel := by
            simp only [Value.depth] at h
            omega
          rw [show writesB (fuel + 1) (.array items) =
            (itemsB fuel items).map
              (fun ws => vOpenL :: arrOpenL :: dataOpenL ::
                (ws ++ [dataCloseL, arrCloseL, vCloseL]))
            from by simp [writesB]]
          rw [itemsB_eq fuel items hd]
          simp [Value.writes]
      | nil => simp [writesB, Value.writes]

theorem membersB_eq (fuel : Nat) (ps : List (List Nat × Value))
    (h : membersDepth ps ≤ fuel) : membersB fuel ps = some (memberWrites ps) := by
  cases ps with
  | nil => simp [membersB, memberWrites]
  | cons p rest =>
      cases p with
      | mk n v =>
          have h1 : Value.depth v ≤ fuel := by
            simp only [membersDepth] at h
            omega
          have h2 : membersDepth rest ≤ fuel := by
            simp only [membersDepth] at h
            omega
          simp [membersB, writesB_eq fuel v h1, membersB_eq fuel rest h2,
            memberWrites]

theorem itemsB_eq (fuel : Nat) (vs : List Value) (h : itemsDepth vs ≤ fuel) :
    itemsB fuel vs = some (itemWrites vs) := by
  cases vs with
  | nil => simp [itemsB, itemWrites]
  | cons v rest =>
      have h1 : Value.depth v ≤ fuel := by
        simp only [itemsDepth] at h
        omega
      have h2 : itemsDepth rest ≤ fuel := by
        simp only [itemsDepth] at h
        omega
      simp [itemsB, writesB_eq fuel v h1, itemsB_eq fuel rest h2, itemWrites]
end

/-- `impl From<i32> for Value` (line 143): wrap into `Int`, no validation. -/
def from_i32 (other : Int) : Value := Value.int other

/-- `impl From<bool> for Value` (line 149). -/
def from_bool (other : Bool) : Value := Value.bool other

/-- `impl From<String> for Value` (line 155): owned text, stored as its
underlying bytes, unescaped. -/
def from_string (other : List Nat) : Value := Value.str other

/-- `impl From<&'a str> for Value` (line 161): borrowed text, stored as its
underlying bytes, unescaped. -/
def from_str (other : List Nat) : Value := Value.str other

/-- `impl From<f64> for Value` (line 167): passed through unchanged, even
NaN/Infinity. -/
def from_f64 (other : F64) : Value := Value.double other

/-- `impl From<DateTime> for Value` (line 173). -/
def from_datetime (other : DateTime) : Value := Value.dateTime other

/-- The repository's `escapes_strings` test (`src/value.rs` lines 185-191),
replayed against the embedding. -/
theorem test_escapes_strings :
    Value.output (.str (ascii "<xml>&nbsp;string")) =
      ascii "<value>\n<string>&lt;xml>&amp;nbsp;string</string>\n</value>\n" := by
  simp [Value.output, Value.writes, strL, vOpenL, vCloseL]
  decide

/-- The repository's `escapes_struct_member_names` test (lines 193-201),
replayed against the embedding. -/
theorem test_escapes_struct_member_names :
    Value.output (.struct [(ascii "x&<x", .bool true)]) =
      ascii "<value>\n<struct>\n<member>\n<name>x&amp;&lt;x</name>\n<value>\n<boolean>1</boolean>\n</value>\n</member>\n</struct>\n</value>\n" := by
  simp [Value.output, Value.writes, memberWrites, nameL, boolL,
    vOpenL, vCloseL, structOpenL, structCloseL, memberOpenL, memberCloseL]
  decide

theorem output_str (s : List Nat) :
    Value.output (.str s) =
      ascii "<value>\n<string>" ++ escape_xml s ++ ascii "</string>\n</value>\n" := by
  have h1 : ascii "<value>\n<string>" = vOpenL ++ ascii "<string>" := by decide
  have h2 : ascii "</string>\n</value>\n" = ascii "</string>\n" ++ vCloseL := by decide
  simp [Value.output, Value.writes, strL, h1, h2, List.append_assoc]

theorem output_dbl (d : F64) :
    Value.output (.double d) =
      ascii "<value>\n<double>" ++ d.display ++ ascii "</double>\n</value>\n" := by
  have h1 : ascii "<value>\n<double>" = vOpenL ++ ascii "<double>" := by decide
  have h2 : ascii "</double>\n</value>\n" = ascii "</double>\n" ++ vCloseL := by decide
  simp [Value.output, Value.writes, dblL, h1, h2, List.append_assoc]

theorem output_b64 (data : List Nat) :
    Value.output (.base64 data) =
      ascii "<value>\n<base64>" ++ encode data ++ ascii "</base64>\n</value>\n" := by
  have h1 : ascii "<value>\n<base64>" = vOpenL ++ ascii "<base64>" := by decide
  have h2 : ascii "</base64>\n</value>\n" = ascii "</base64>\n" ++ vCloseL := by decide
  simp [Value.output, Value.writes, b64L, h1, h2, List.append_assoc]

/-- C1: formatting `Value::String(s)` emits exactly
`<value>\n<string>{escaped s}</string>\n</value>\n`; the escaped body is
well-escaped (no `<` remains at all, every `&` heads an `&amp;` or `&lt;`
entity, so no unescaped `&`/`<` remains), each input `&` and `<`
contributes exactly one escape entity, and `>` (62) is passed through
unescaped (its count is preserved). -/
theorem claim_C1_string_escaping (s : List Nat) :
    Value.output (.str s) =
      ascii "<value>\n<string>" ++ escape_xml s ++ ascii "</string>\n</value>\n" ∧
    wellEscaped (escape_xml s) = true ∧
    (escape_xml s).count 38 = s.count 38 + s.count 60 ∧
    (escape_xml s).count 62 = s.count 62 :=
  ⟨output_str s, wellEscaped_escape_xml s, count_38_escape_xml s,
   count_62_escape_xml s⟩

/-- C2: formatting `Value::Struct(pairs)` emits exactly one `<member>`
block per pair, in input order (the chunk trace is literally the
concatenation of the per-pair blocks, so duplicate names are kept as
separate entries with no deduplication), each block holding the escaped
name then the recursive formatting of the value; there are exactly
`len(pairs)` blocks, and formatting (the empty list included) succeeds on
an accepting sink. -/
theorem claim_C2_struct_members (ps : List (List Nat × Value)) :
    Value.writes (.struct ps) =
      vOpenL :: structOpenL ::
        ((ps.map (fun p => memberOpenL :: nameL p.1 ::
          (Value.writes p.2 ++ [memberCloseL]))).flatten ++ [structCloseL, vCloseL]) ∧
    (ps.map (fun p => memberOpenL :: nameL p.1 ::
      (Value.writes p.2 ++ [memberCloseL]))).length = ps.length ∧
    Value.format (fun _ => true) (.struct ps) (0, []) =
      .ok ((Value.writes (.struct ps)).length, Value.output (.struct ps)) := by
  refine ⟨by simp [Value.writes, memberWrites_eq_flatten], by simp, ?_⟩
  rw [format_eq_run, runWrites_ok (fun _ => true) (fun _ => rfl)]
  simp [Value.output]

/-- C3: formatting `Value::Array(items)` emits `<array>` then `<data>`,
then exactly the recursive formatting of each item in input order, then
`</data>` and `</array>`, and the maximum `<value>` nesting level of the
emitted chunk stream equals the nesting depth of the input value tree
exactly. -/
theorem claim_C3_array_items_depth (items : List Value) (v : Value) :
    Value.writes (.array items) =
      vOpenL :: arrOpenL :: dataOpenL ::
        ((items.map Value.writes).flatten ++ [dataCloseL, arrCloseL, vCloseL]) ∧
    maxNest (Value.writes v) = (Value.depth v : Int) :=
  ⟨by simp [Value.writes, itemWrites_eq_flatten], maxNest_writes v⟩

/-- C4: on a sink that accepts every write, `format` returns `Ok` for every
value (there is no value-shape error); on a sink that accepts exactly the
first `k` writes, `format` performs those `k` writes, aborts at the first
failure and returns the error, having written exactly the first `k` chunks
and attempted nothing further. -/
theorem claim_C4_error_handling (v : Value) (f : Nat → Bool) (k : Nat) :
    ((∀ i, f i = true) →
      Value.format f v (0, []) = .ok ((Value.writes v).length, Value.output v)) ∧
    (k < (Value.writes v).length →
      Value.format (fun i => decide (i < k)) v (0, []) =
        .error (k, ((Value.writes v).take k).flatten)) := by
  constructor
  · intro hf
    rw [format_eq_run, runWrites_ok f hf]
    simp [Value.output]
  · intro hk
    rw [format_eq_run, runWrites_failAt k _ 0 [] (by omega)]
    rw [if_neg (by omega)]
    simp

/-- C4 witness: `Value::Nil` on an all-accepting sink succeeds, and on a
sink that fails from write 1 on, errors out with only the `<value>` line
written. -/
theorem claim_C4_witness :
    Value.format (fun _ => true) Value.nil (0, []) =
      .ok ((Value.writes Value.nil).length, Value.output Value.nil) ∧
    Value.format (fun i => decide (i < 1)) Value.nil (0, []) =
      .error (1, ((Value.writes Value.nil).take 1).flatten) :=
  ⟨(claim_C4_error_handling Value.nil (fun _ => true) 1).1 (fun _ => rfl),
   (claim_C4_error_handling Value.nil (fun _ => true) 1).2 (by simp [Value.writes])⟩

/-- C5: formatting `Value::Base64(b)` emits
`<value>\n<base64>{encode b}</base64>\n</value>\n`; decoding the base64
body with a standard padded decoder reproduces `b` exactly (empty and
non-printable bytes included); the base64 text is ASCII-safe and passes
through the XML escaper unchanged (it is never escaped). -/
theorem claim_C5_base64_roundtrip (b : List Nat) (h : ∀ x ∈ b, x < 256) :
    Value.output (.base64 b) =
      ascii "<value>\n<base64>" ++ encode b ++ ascii "</base64>\n</value>\n" ∧
    decode (encode b) = b ∧
    (∀ x ∈ encode b, x < 128 ∧ x ≠ 38 ∧ x ≠ 60) ∧
    escape_xml (encode b) = encode b := by
  have hsafe := encode_safe b h
  exact ⟨output_b64 b, decode_encode b h, hsafe,
    escape_xml_id_of_safe _ (fun x hx => (hsafe x hx).2)⟩

/-- C5 witness: the round trip and safety at the concrete byte sequence
`[0, 255, 7]`. -/
theorem claim_C5_witness : (∀ x ∈ ([0, 255, 7] : List Nat), x < 256) ∧
    (Value.output (.base64 [0, 255, 7]) =
      ascii "<value>\n<base64>" ++ encode [0, 255, 7] ++ ascii "</base64>\n</value>\n" ∧
    decode (encode [0, 255, 7]) = [0, 255, 7] ∧
    (∀ x ∈ encode [0, 255, 7], x < 128 ∧ x ≠ 38 ∧ x ≠ 60) ∧
    escape_xml (encode [0, 255, 7]) = encode [0, 255, 7]) :=
  ⟨by decide, claim_C5_base64_roundtrip [0, 255, 7] (by decide)⟩

/-- C6: formatting `Value::Bool(b)` emits exactly
`<boolean>1</boolean>` for true and `<boolean>0</boolean>` for false
inside the `<value>` envelope, and the chunk trace holds nothing else. -/
theorem claim_C6_bool_formatting (b : Bool) :
    Value.output (.bool b) =
      ascii "<value>\n" ++
        (if b then ascii "<boolean>1</boolean>\n" else ascii "<boolean>0</boolean>\n") ++
      ascii "</value>\n" ∧
    Value.writes (.bool b) = [vOpenL, boolL b, vCloseL] := by
  cases b
  · refine ⟨?_, by simp [Value.writes]⟩
    simp [Value.output, Value.writes, boolL, vOpenL, vCloseL]
    decide
  · refine ⟨?_, by simp [Value.writes]⟩
    simp [Value.output, Value.writes, boolL, vOpenL, vCloseL]
    decide

/-- C7: each one-argument conversion is total and wraps its argument into
the matching variant unchanged — no validation, no escaping at
construction (the string payload is stored verbatim and escaped only at
formatting time; the double display, NaN/Infinity included, is passed
through to formatting unchanged). -/
theorem claim_C7_conversions (i : Int) (b : Bool) (s : List Nat) (d : F64)
    (dt : DateTime) :
    from_i32 i = Value.int i ∧
    from_bool b = Value.bool b ∧
    from_string s = Value.str s ∧
    from_str s = Value.str s ∧
    from_f64 d = Value.double d ∧
    from_datetime dt = Value.dateTime dt ∧
    Value.output (from_string s) =
      ascii "<value>\n<string>" ++ escape_xml s ++ ascii "</string>\n</value>\n" ∧
    Value.output (from_f64 d) =
      ascii "<value>\n<double>" ++ d.display ++ ascii "</double>\n</value>\n" :=
  ⟨rfl, rfl, rfl, rfl, rfl, rfl, output_str s, output_dbl d⟩

/-- C8: recursive formatting terminates on every finite value tree: the
recursion is well-founded over the structure, one recursive call per
struct/array child, so a recursion-depth budget equal to the tree's
nesting depth always suffices to produce the full chunk trace. -/
theorem claim_C8_termination (v : Value) (fuel : Nat) (h : Value.depth v ≤ fuel) :
    writesB fuel v = some (Value.writes v) :=
  writesB_eq fuel v h

/-- C8 witness: depth budget 2 suffices for an array holding one
boolean. -/
theorem claim_C8_witness : Value.depth (Value.array [Value.bool true]) ≤ 2 ∧
    writesB 2 (Value.array [Value.bool true]) =
      some (Value.writes (Value.array [Value.bool true])) :=
  ⟨by simp [Value.depth, itemsDepth],
   claim_C8_termination (Value.array [Value.bool true]) 2
     (by simp [Value.depth, itemsDepth])⟩

/-- C9: formatting the empty array yields exactly the six lines
`<value>`, `<array>`, `<data>`, `</data>`, `</array>`, `</value>` with
zero nested `<value>` blocks, and succeeds. -/
theorem claim_C9_empty_array :
    Value.output (.array []) =
      ascii "<value>\n<array>\n<data>\n</data>\n</array>\n</value>\n" ∧
    Value.writes (.array []) =
      [vOpenL, arrOpenL, dataOpenL, dataCloseL, arrCloseL, vCloseL] ∧
    Value.format (fun _ => true) (.array []) (0, []) =
      .ok (6, Value.output (.array [])) := by
  refine ⟨?_, ?_, ?_⟩
  · simp [Value.output, Value.writes, itemWrites, vOpenL, arrOpenL, dataOpenL,
      dataCloseL, arrCloseL, vCloseL]
    decide
  · simp [Value.writes, itemWrites]
  · rw [format_eq_run]
    rw [runWrites_ok (fun _ => true) (fun _ => rfl) (Value.writes (.array [])) 0 []]
    have hl : (Value.writes (.array [])).length = 6 := by simp [Value.writes, itemWrites]
    rw [hl]
    simp [Value.output]

/-- C10: whatever the sink does, the bytes it holds when `format` returns
(`Ok` or `Err`) are a prefix of the fully successful output of the same
value — an aborted walk never emits out-of-order, duplicated, or extra
output. -/
theorem claim_C10_prefix_on_error (v : Value) (f : Nat → Bool) :
    ∃ t, resWritten (Value.format f v (0, [])) ++ t = Value.output v := by
  rw [format_eq_run]
  simpa [Value.output] using resWritten_runWrites_prefix f (Value.writes v) 0 []
